import Mathlib

/-!
Verification of the user-registry canister (`src/icp_dsatke_backend/src/lib.rs`).

The canister keeps a `HashMap<PrincipalText, User>` in a thread-local cell and
exposes two entry points: `add_or_update_user` (an update call that inserts or
replaces the record keyed by `principal_id` and returns a confirmation string)
and `get_all_users` (a query call that returns a clone of every stored record).

The `HashMap` is embedded as an association list with unique keys, where
`insertUser` has Rust `HashMap::insert` semantics: it replaces the value stored
under an existing key and otherwise adds a fresh entry.  Iteration order of a
Rust `HashMap` is unspecified, so no claim below depends on the order the model
happens to produce.  Canister calls are serialized by the runtime, so state is
threaded explicitly through each operation.
-/

namespace DstakeBackend

/-- `type PrincipalText = String;` -/
abbrev PrincipalText := String

/-- `type AccountId = String;` -/
abbrev AccountId := String

/-- `type Balance = u64;` — balances are only stored and copied, never used in
arithmetic, so `Nat` carries them faithfully. -/
abbrev Balance := Nat

/-- `struct User { principal_id, account_id, balance_e8s }` -/
structure User where
  principal_id : PrincipalText
  account_id : AccountId
  balance_e8s : Balance
deriving DecidableEq, Repr

/-- `HashMap::insert(k, v)`: replace the value under an existing key `k`,
otherwise add the entry `(k, v)`. -/
def insertUser : List (PrincipalText × User) → PrincipalText → User →
    List (PrincipalText × User)
  | [], k, v => [(k, v)]
  | (k₂, v₂) :: rest, k, v =>
      if k₂ = k then (k₂, v) :: rest else (k₂, v₂) :: insertUser rest k v

/-- `HashMap::get(k)`: the value stored under key `k`, if any. -/
def lookupUser (m : List (PrincipalText × User)) (k : PrincipalText) :
    Option User :=
  (m.find? (fun p => p.1 = k)).map Prod.snd

/-- `struct BackendState { users: HashMap<PrincipalText, User> }` -/
structure BackendState where
  users : List (PrincipalText × User)
deriving DecidableEq, Repr

/-- `BackendState::default()`: the freshly initialized registry, with an empty
map (`STATE` starts as `RefCell::new(BackendState::default())`). -/
def BackendState.default : BackendState := ⟨[]⟩

/-- `fn add_or_update_user(principal_id, account_id, balance_e8s) -> String`:
builds a `User` from the three arguments, inserts it keyed by `principal_id`,
and returns `format!("User {} stored successfully", principal_id)`.  The state
is threaded explicitly: the result pairs the new state with the returned
string. -/
def add_or_update_user (st : BackendState) (principal_id : String)
    (account_id : String) (balance_e8s : Balance) : BackendState × String :=
  let user : User :=
    { principal_id := principal_id, account_id := account_id,
      balance_e8s := balance_e8s }
  (⟨insertUser st.users principal_id user⟩,
   "User " ++ principal_id ++ " stored successfully")

/-- `fn get_all_users() -> Vec<User>`: clones every stored value.  The result
pairs the (unchanged) state with the returned sequence. -/
def get_all_users (st : BackendState) : BackendState × List User :=
  (st, st.users.map Prod.snd)

/-- One canister call: either of the two exposed entry points. -/
inductive Call where
  | upsert (principal_id account_id : String) (balance_e8s : Balance)
  | listAll
deriving DecidableEq, Repr

/-- The state transition performed by one call. -/
def step (st : BackendState) : Call → BackendState
  | .upsert p a b => (add_or_update_user st p a b).1
  | .listAll => (get_all_users st).1

/-- The state reached from the freshly initialized registry by a finite
sequence of calls. -/
def run (calls : List Call) : BackendState :=
  calls.foldl step BackendState.default

/-- Apply a sequence of upserts, each given as
`(principal_id, account_id, balance_e8s)`, to a state. -/
def applyUpserts (st : BackendState)
    (ops : List (String × String × Balance)) : BackendState :=
  ops.foldl (fun s o => (add_or_update_user s o.1 o.2.1 o.2.2).1) st

/-- The state reached from the freshly initialized registry by a sequence of
upserts. -/
def runUpserts (ops : List (String × String × Balance)) : BackendState :=
  applyUpserts BackendState.default ops

/-- The arguments of the last upsert in `ops` performed for identity `i`:
`some (account_id, balance_e8s)` when such an upsert exists, else `none`. -/
def lastUpsertFor (ops : List (String × String × Balance)) (i : String) :
    Option (String × Balance) :=
  (ops.reverse.find? (fun o => o.1 = i)).map Prod.snd

/-- Well-formedness of the embedded map: every stored record's
`principal_id` equals the key it is stored under, and keys are distinct. -/
def KeyedWf (m : List (PrincipalText × User)) : Prop :=
  (∀ p ∈ m, p.2.principal_id = p.1) ∧ (m.map Prod.fst).Nodup

/-! ### Concrete sanity checks of the embedding -/

example :
    (get_all_users
      ((add_or_update_user BackendState.default "p1" "a1" 100).1)).2 =
    [⟨"p1", "a1", 100⟩] := by decide

example :
    (add_or_update_user BackendState.default "p1" "a1" 100).2 =
    "User p1 stored successfully" := by decide

/-! ### Lemmas about the embedded map -/

theorem lookupUser_insertUser (m : List (PrincipalText × User))
    (k k₂ : PrincipalText) (v : User) :
    lookupUser (insertUser m k v) k₂ =
      if k₂ = k then some v else lookupUser m k₂ := by
  induction m with
  | nil =>
      by_cases h : k₂ = k
      · subst h; simp [insertUser, lookupUser]
      · simp [insertUser, lookupUser, List.find?, Ne.symm h, h]
  | cons p rest ih =>
      obtain ⟨k₁, v₁⟩ := p
      by_cases hk : k₁ = k
      · subst hk
        by_cases h : k₂ = k₁
        · subst h; simp [insertUser, lookupUser]
        · simp [insertUser, lookupUser, List.find?, Ne.symm h, h]
      · by_cases h : k₂ = k₁
        · subst h
          have : ¬ k₂ = k := fun hh => hk (hh ▸ rfl)
          simp [insertUser, lookupUser, hk, this]
        · simpa [insertUser, lookupUser, hk, List.find?, Ne.symm h, h]
            using ih

theorem length_insertUser_of_lookup_some (m : List (PrincipalText × User))
    (k : PrincipalText) (v u : User) (h : lookupUser m k = some u) :
    (insertUser m k v).length = m.length := by
  induction m with
  | nil => simp [lookupUser] at h
  | cons p rest ih =>
      obtain ⟨k₁, v₁⟩ := p
      by_cases hk : k₁ = k
      · simp [insertUser, hk]
      · have h₂ : lookupUser rest k = some u := by
          simpa [lookupUser, List.find?, hk] using h
        simp [insertUser, hk, ih h₂]

theorem length_insertUser_of_lookup_none (m : List (PrincipalText × User))
    (k : PrincipalText) (v : User) (h : lookupUser m k = none) :
    (insertUser m k v).length = m.length + 1 := by
  induction m with
  | nil => simp [insertUser]
  | cons p rest ih =>
      obtain ⟨k₁, v₁⟩ := p
      by_cases hk : k₁ = k
      · exfalso; simp [lookupUser, List.find?, hk] at h
      · have h₂ : lookupUser rest k = none := by
          simpa [lookupUser, List.find?, hk] using h
        simp [insertUser, hk, ih h₂]

theorem mem_insertUser_of_mem (m : List (PrincipalText × User))
    (k : PrincipalText) (v : User) (p : PrincipalText × User)
    (hp : p ∈ m) (hne : p.1 ≠ k) : p ∈ insertUser m k v := by
  induction m with
  | nil => simp at hp
  | cons q rest ih =>
      obtain ⟨k₁, v₁⟩ := q
      rcases List.mem_cons.mp hp with h | h
      · subst h
        by_cases hk : k₁ = k
        · exact absurd hk hne
        · simp [insertUser, hk]
      · by_cases hk : k₁ = k
        · simp [insertUser, hk, h]
        · simp [insertUser, hk, ih h]

theorem insertUser_cons_pos (k₁ : PrincipalText) (v₁ : User)
    (rest : List (PrincipalText × User)) (k : PrincipalText) (v : User)
    (hk : k₁ = k) :
    insertUser ((k₁, v₁) :: rest) k v = (k₁, v) :: rest := by
  simp [insertUser, hk]

theorem insertUser_cons_neg (k₁ : PrincipalText) (v₁ : User)
    (rest : List (PrincipalText × User)) (k : PrincipalText) (v : User)
    (hk : ¬ k₁ = k) :
    insertUser ((k₁, v₁) :: rest) k v = (k₁, v₁) :: insertUser rest k v := by
  simp [insertUser, hk]

theorem fst_mem_of_mem_insertUser (m : List (PrincipalText × User))
    (k : PrincipalText) (v : User) (x : PrincipalText) :
    x ∈ (insertUser m k v).map Prod.fst → x ∈ m.map Prod.fst ∨ x = k := by
  induction m with
  | nil => intro hx; simpa [insertUser] using hx
  | cons q rest ih =>
      obtain ⟨k₁, v₁⟩ := q
      intro hx
      by_cases hk : k₁ = k
      · rw [insertUser_cons_pos k₁ v₁ rest k v hk, List.map_cons] at hx
        exact Or.inl (by simpa using hx)
      · rw [insertUser_cons_neg k₁ v₁ rest k v hk, List.map_cons] at hx
        rcases List.mem_cons.mp hx with h | h
        · exact Or.inl (by simp [h])
        · rcases ih h with h₂ | h₂
          · exact Or.inl (List.mem_cons_of_mem _ h₂)
          · exact Or.inr h₂

theorem ids_insertUser (m : List (PrincipalText × User))
    (k : PrincipalText) (v : User) (hv : v.principal_id = k) :
    (∀ p ∈ m, p.2.principal_id = p.1) →
    ∀ p ∈ insertUser m k v, p.2.principal_id = p.1 := by
  induction m with
  | nil =>
      intro _ p hp
      have : p = (k, v) := by simpa [insertUser] using hp
      subst this; simpa using hv
  | cons q rest ih =>
      obtain ⟨k₁, v₁⟩ := q
      intro hm p hp
      by_cases hk : k₁ = k
      · rw [insertUser_cons_pos k₁ v₁ rest k v hk] at hp
        rcases List.mem_cons.mp hp with h | h
        · subst h; simpa [hk] using hv
        · exact hm _ (List.mem_cons_of_mem _ h)
      · rw [insertUser_cons_neg k₁ v₁ rest k v hk] at hp
        rcases List.mem_cons.mp hp with h | h
        · subst h; exact hm _ (List.mem_cons_self _ _)
        · exact ih (fun q hq => hm q (List.mem_cons_of_mem _ hq)) _ h

theorem nodup_fst_insertUser (m : List (PrincipalText × User))
    (k : PrincipalText) (v : User) :
    (m.map Prod.fst).Nodup → ((insertUser m k v).map Prod.fst).Nodup := by
  induction m with
  | nil => intro _; simp [insertUser]
  | cons q rest ih =>
      obtain ⟨k₁, v₁⟩ := q
      intro hnd
      rw [List.map_cons, List.nodup_cons] at hnd
      by_cases hk : k₁ = k
      · rw [insertUser_cons_pos k₁ v₁ rest k v hk, List.map_cons,
          List.nodup_cons]
        exact hnd
      · rw [insertUser_cons_neg k₁ v₁ rest k v hk, List.map_cons,
          List.nodup_cons]
        refine ⟨?_, ih hnd.2⟩
        intro hmem
        rcases fst_mem_of_mem_insertUser rest k v k₁ hmem with h | h
        · exact hnd.1 h
        · exact hk h

theorem keyedWf_insertUser (m : List (PrincipalText × User))
    (k : PrincipalText) (v : User) (hv : v.principal_id = k)
    (hm : KeyedWf m) : KeyedWf (insertUser m k v) :=
  ⟨ids_insertUser m k v hv hm.1, nodup_fst_insertUser m k v hm.2⟩

theorem lookupUser_eq_some_of_mem_snd (m : List (PrincipalText × User))
    (u : User) :
    KeyedWf m → u ∈ m.map Prod.snd → lookupUser m u.principal_id = some u := by
  induction m with
  | nil => intro _ hu; simp at hu
  | cons q rest ih =>
      obtain ⟨k₁, v₁⟩ := q
      intro hm hu
      obtain ⟨hids, hnd⟩ := hm
      rw [List.map_cons, List.nodup_cons] at hnd
      rw [List.map_cons] at hu
      rcases List.mem_cons.mp hu with h | h
      · subst h
        have hid : u.principal_id = k₁ :=
          hids (k₁, u) (List.mem_cons_self _ _)
        simp [lookupUser, List.find?, hid]
      · have hpid : ¬ k₁ = u.principal_id := by
          intro hEq
          obtain ⟨p, hp, hp₂⟩ := List.mem_map.mp h
          have hpp : p.2.principal_id = p.1 :=
            hids p (List.mem_cons_of_mem _ hp)
          have hpk : p.1 = k₁ := by rw [← hpp, hp₂, ← hEq]
          exact hnd.1 (hpk ▸ List.mem_map.mpr ⟨p, hp, rfl⟩)
        have hrec := ih
          ⟨fun q hq => hids q (List.mem_cons_of_mem _ hq), hnd.2⟩ h
        simpa [lookupUser, List.find?, hpid] using hrec

/-! ### Lemmas about reachable states -/

theorem keyedWf_default : KeyedWf (BackendState.default).users := by
  constructor
  · intro p hp; simp [BackendState.default] at hp
  · simp [BackendState.default]

theorem keyedWf_step (st : BackendState) (c : Call)
    (h : KeyedWf st.users) : KeyedWf (step st c).users := by
  cases c with
  | upsert p a b => exact keyedWf_insertUser st.users p _ rfl h
  | listAll => exact h

theorem keyedWf_foldl_step (calls : List Call) :
    ∀ st : BackendState, KeyedWf st.users →
      KeyedWf (calls.foldl step st).users := by
  induction calls with
  | nil => intro st h; simpa using h
  | cons c rest ih => intro st h; exact ih _ (keyedWf_step st c h)

theorem keyedWf_run (calls : List Call) : KeyedWf (run calls).users :=
  keyedWf_foldl_step calls BackendState.default keyedWf_default

theorem keyedWf_applyUpserts (ops : List (String × String × Balance)) :
    ∀ st : BackendState, KeyedWf st.users →
      KeyedWf (applyUpserts st ops).users := by
  induction ops with
  | nil => intro st h; simpa [applyUpserts] using h
  | cons o rest ih =>
      intro st h
      exact ih _ (keyedWf_insertUser st.users o.1 _ rfl h)

theorem keyedWf_runUpserts (ops : List (String × String × Balance)) :
    KeyedWf (runUpserts ops).users :=
  keyedWf_applyUpserts ops BackendState.default keyedWf_default

theorem applyUpserts_append_singleton (st : BackendState)
    (ops : List (String × String × Balance)) (o : String × String × Balance) :
    applyUpserts st (ops ++ [o]) =
      (add_or_update_user (applyUpserts st ops) o.1 o.2.1 o.2.2).1 := by
  simp [applyUpserts, List.foldl_append]

theorem lastUpsertFor_append_singleton
    (ops : List (String × String × Balance)) (o : String × String × Balance)
    (i : String) :
    lastUpsertFor (ops ++ [o]) i =
      if o.1 = i then some o.2 else lastUpsertFor ops i := by
  by_cases hp : o.1 = i
  · simp [lastUpsertFor, List.reverse_append, List.find?, hp]
  · simp [lastUpsertFor, List.reverse_append, List.find?, hp]

/-- The record stored for identity `i` after a sequence of upserts is built
from the arguments of the last upsert for `i`; identities never upserted keep
whatever the starting state stored for them. -/
theorem lookupUser_applyUpserts (ops : List (String × String × Balance))
    (st : BackendState) (i : String) :
    lookupUser (applyUpserts st ops).users i =
      match lastUpsertFor ops i with
      | some (a, b) => some ⟨i, a, b⟩
      | none => lookupUser st.users i := by
  induction ops using List.reverseRecOn with
  | nil => simp [applyUpserts, lastUpsertFor]
  | append_singleton ops o ih =>
      obtain ⟨p, a, b⟩ := o
      rw [applyUpserts_append_singleton, lastUpsertFor_append_singleton]
      by_cases hp : p = i
      · subst hp
        simp [add_or_update_user, lookupUser_insertUser]
      · have hip : ¬ i = p := fun h => hp h.symm
        simp only [add_or_update_user]
        rw [lookupUser_insertUser]
        simp only [hip, if_neg hip, hp, if_neg hp]
        exact ih

/-- Upserting the same triple twice in a row leaves the same state as
upserting it once. -/
theorem insertUser_idem (m : List (PrincipalText × User))
    (k : PrincipalText) (v : User) :
    insertUser (insertUser m k v) k v = insertUser m k v := by
  induction m with
  | nil => simp [insertUser]
  | cons q rest ih =>
      obtain ⟨k₁, v₁⟩ := q
      by_cases hk : k₁ = k
      · rw [insertUser_cons_pos k₁ v₁ rest k v hk,
          insertUser_cons_pos k₁ v rest k v hk]
      · rw [insertUser_cons_neg k₁ v₁ rest k v hk,
          insertUser_cons_neg k₁ v₁ (insertUser rest k v) k v hk, ih]

/-! ### Claims -/

/-- C1: after any finite sequence of `add_or_update_user` calls from the
freshly initialized registry, every record returned by `get_all_users` has
`account_id` and `balance_e8s` exactly equal to the arguments of the last
upsert performed for that record's identity; and repeating an identical upsert
leaves the resulting state (hence the listing) unchanged. -/
theorem c1_last_upsert_determines_listing
    (ops : List (String × String × Balance)) (u : User)
    (hu : u ∈ (get_all_users (runUpserts ops)).2) :
    lastUpsertFor ops u.principal_id = some (u.account_id, u.balance_e8s) ∧
    ∀ (st : BackendState) (p a : String) (b : Balance),
      (add_or_update_user (add_or_update_user st p a b).1 p a b).1 =
        (add_or_update_user st p a b).1 := by
  constructor
  · have hwf := keyedWf_runUpserts ops
    have hu₂ : u ∈ (runUpserts ops).users.map Prod.snd := hu
    have hlook := lookupUser_eq_some_of_mem_snd (runUpserts ops).users u hwf hu₂
    have hmain :=
      lookupUser_applyUpserts ops BackendState.default u.principal_id
    rw [show runUpserts ops = applyUpserts BackendState.default ops from rfl]
      at hlook
    rw [hmain] at hlook
    cases hcase : lastUpsertFor ops u.principal_id with
    | none =>
        rw [hcase] at hlook
        simp [BackendState.default, lookupUser] at hlook
    | some ab =>
        obtain ⟨a, b⟩ := ab
        rw [hcase] at hlook
        have heq : (⟨u.principal_id, a, b⟩ : User) = u :=
          Option.some.inj hlook
        obtain ⟨pid, acc, bal⟩ := u
        simp only [User.mk.injEq] at heq
        simp [heq.2.1, heq.2.2]
  · intro st p a b
    simp [add_or_update_user, insertUser_idem]

/-- Witness for C1 at the one-upsert trace `[("p1", "a1", 5)]`. -/
theorem c1_witness :
    (⟨"p1", "a1", 5⟩ : User) ∈
        (get_all_users (runUpserts [("p1", "a1", 5)])).2 ∧
    (lastUpsertFor [("p1", "a1", 5)]
        (⟨"p1", "a1", 5⟩ : User).principal_id =
        some ((⟨"p1", "a1", 5⟩ : User).account_id,
          (⟨"p1", "a1", 5⟩ : User).balance_e8s) ∧
      ∀ (st : BackendState) (p a : String) (b : Balance),
        (add_or_update_user (add_or_update_user st p a b).1 p a b).1 =
          (add_or_update_user st p a b).1) :=
  ⟨by decide,
   c1_last_upsert_determines_listing [("p1", "a1", 5)] ⟨"p1", "a1", 5⟩
     (by decide)⟩

/-- C2: upserting `("p1","a1",100)` then `("p1","a2",200)` from the freshly
initialized registry and listing returns exactly one record
`{principal_id:"p1", account_id:"a2", balance_e8s:200}`: the second upsert
fully replaces both account and balance. -/
theorem c2_overwrite_not_merge :
    (get_all_users
      ((add_or_update_user
        ((add_or_update_user BackendState.default "p1" "a1" 100).1)
        "p1" "a2" 200).1)).2 = [⟨"p1", "a2", 200⟩] := by decide

/-- C3: in every state reachable from the freshly initialized registry by any
sequence of calls, `get_all_users` never returns two records with the same
identity, and each stored record's `principal_id` equals the map key it is
stored under. -/
theorem c3_at_most_one_record_per_identity (calls : List Call) :
    ((get_all_users (run calls)).2.map User.principal_id).Nodup ∧
    ∀ p ∈ (run calls).users, p.2.principal_id = p.1 := by
  have hwf := keyedWf_run calls
  refine ⟨?_, hwf.1⟩
  have hmap : (get_all_users (run calls)).2.map User.principal_id =
      (run calls).users.map Prod.fst := by
    show ((run calls).users.map Prod.snd).map User.principal_id = _
    rw [List.map_map]
    exact List.map_congr_left fun p hp => hwf.1 p hp
  rw [hmap]
  exact hwf.2

/-- Witness for C3 at a concrete three-call trace. -/
theorem c3_witness :
    ((get_all_users (run [Call.upsert "p1" "a1" 1, Call.listAll,
        Call.upsert "p2" "a2" 2])).2.map User.principal_id).Nodup ∧
    ∀ p ∈ (run [Call.upsert "p1" "a1" 1, Call.listAll,
        Call.upsert "p2" "a2" 2]).users, p.2.principal_id = p.1 :=
  c3_at_most_one_record_per_identity
    [Call.upsert "p1" "a1" 1, Call.listAll, Call.upsert "p2" "a2" 2]

/-- C4: upserting an identity that is already present leaves the number of
stored records unchanged and stores exactly the new account and balance under
that identity. -/
theorem c4_existing_identity_replaces (st : BackendState) (i a : String)
    (b : Balance) (u : User) (h : lookupUser st.users i = some u) :
    ((add_or_update_user st i a b).1).users.length = st.users.length ∧
    lookupUser ((add_or_update_user st i a b).1).users i =
      some ⟨i, a, b⟩ := by
  constructor
  · simpa [add_or_update_user] using
      length_insertUser_of_lookup_some st.users i ⟨i, a, b⟩ u h
  · simp [add_or_update_user, lookupUser_insertUser]

/-- Witness for C4 at a one-record state. -/
theorem c4_witness :
    lookupUser (⟨[("p1", ⟨"p1", "a0", 1⟩)]⟩ : BackendState).users "p1" =
      some ⟨"p1", "a0", 1⟩ ∧
    (((add_or_update_user ⟨[("p1", ⟨"p1", "a0", 1⟩)]⟩ "p1" "a9" 7).1).users.length =
        (⟨[("p1", ⟨"p1", "a0", 1⟩)]⟩ : BackendState).users.length ∧
      lookupUser ((add_or_update_user ⟨[("p1", ⟨"p1", "a0", 1⟩)]⟩
        "p1" "a9" 7).1).users "p1" = some ⟨"p1", "a9", 7⟩) :=
  ⟨by decide,
   c4_existing_identity_replaces ⟨[("p1", ⟨"p1", "a0", 1⟩)]⟩ "p1" "a9" 7
     ⟨"p1", "a0", 1⟩ (by decide)⟩

/-- C5: upserting an identity that is not present increases the number of
stored records by exactly one. -/
theorem c5_new_identity_adds_one (st : BackendState) (i a : String)
    (b : Balance) (h : lookupUser st.users i = none) :
    ((add_or_update_user st i a b).1).users.length = st.users.length + 1 := by
  simpa [add_or_update_user] using
    length_insertUser_of_lookup_none st.users i ⟨i, a, b⟩ h

/-- Witness for C5 at a one-record state and a fresh identity. -/
theorem c5_witness :
    lookupUser (⟨[("p1", ⟨"p1", "a0", 1⟩)]⟩ : BackendState).users "p2" =
      none ∧
    ((add_or_update_user ⟨[("p1", ⟨"p1", "a0", 1⟩)]⟩ "p2" "a2" 9).1).users.length =
      (⟨[("p1", ⟨"p1", "a0", 1⟩)]⟩ : BackendState).users.length + 1 :=
  ⟨by decide,
   c5_new_identity_adds_one ⟨[("p1", ⟨"p1", "a0", 1⟩)]⟩ "p2" "a2" 9
     (by decide)⟩

/-- C6: `get_all_users` is a pure read: it returns the state unchanged, and
appending a `listAll` call to any trace reaches the same state.  (The model is
purely functional, so the returned records are values; nothing a caller does
with them can alter the registry state.) -/
theorem c6_get_all_users_pure (st : BackendState) (calls : List Call) :
    (get_all_users st).1 = st ∧
    run (calls ++ [Call.listAll]) = run calls := by
  refine ⟨rfl, ?_⟩
  simp [run, List.foldl_append, step, get_all_users]

/-- C7: listing on the freshly initialized registry, with no prior upserts,
returns the empty sequence. -/
theorem c7_fresh_registry_lists_empty :
    (get_all_users BackendState.default).2 = [] ∧
    (get_all_users (run [])).2 = [] := by decide

/-- C8: `add_or_update_user` always returns a confirmation string (it is a
total function of the state and arguments, with no error outcome), and that
string contains the stored identity as a contiguous substring, for every state
and all arguments. -/
theorem c8_never_fails_mentions_identity (st : BackendState) (i a : String)
    (b : Balance) :
    ∃ leading trailing : String,
      (add_or_update_user st i a b).2 = leading ++ i ++ trailing :=
  ⟨"User ", " stored successfully", rfl⟩

/-- C9: upserting identity `i` leaves every entry stored under a different key
unchanged: lookups of other keys are unaffected and entries keyed by other
identities remain in the map verbatim. -/
theorem c9_other_identities_untouched (st : BackendState) (i a : String)
    (b : Balance) (k : PrincipalText) (hk : k ≠ i) :
    lookupUser ((add_or_update_user st i a b).1).users k =
      lookupUser st.users k ∧
    ∀ p ∈ st.users, p.1 ≠ i → p ∈ ((add_or_update_user st i a b).1).users := by
  constructor
  · simp only [add_or_update_user]
    rw [lookupUser_insertUser]
    simp [hk]
  · intro p hp hpi
    simpa [add_or_update_user] using
      mem_insertUser_of_mem st.users i ⟨i, a, b⟩ p hp hpi

/-- Witness for C9 at a two-record state. -/
theorem c9_witness :
    ("p2" : PrincipalText) ≠ "p1" ∧
    (lookupUser ((add_or_update_user
        ⟨[("p1", ⟨"p1", "a1", 1⟩), ("p2", ⟨"p2", "a2", 2⟩)]⟩
        "p1" "a9" 9).1).users "p2" =
      lookupUser (⟨[("p1", ⟨"p1", "a1", 1⟩),
        ("p2", ⟨"p2", "a2", 2⟩)]⟩ : BackendState).users "p2" ∧
    ∀ p ∈ (⟨[("p1", ⟨"p1", "a1", 1⟩),
        ("p2", ⟨"p2", "a2", 2⟩)]⟩ : BackendState).users, p.1 ≠ "p1" →
      p ∈ ((add_or_update_user
        ⟨[("p1", ⟨"p1", "a1", 1⟩), ("p2", ⟨"p2", "a2", 2⟩)]⟩
        "p1" "a9" 9).1).users) :=
  ⟨by decide,
   c9_other_identities_untouched
     ⟨[("p1", ⟨"p1", "a1", 1⟩), ("p2", ⟨"p2", "a2", 2⟩)]⟩
     "p1" "a9" 9 "p2" (by decide)⟩

/-- C10: the confirmation string is exactly
`"User " ++ identity ++ " stored successfully"`, independent of the prior
state and of the account and balance arguments. -/
theorem c10_confirmation_string_exact (st : BackendState) (i a : String)
    (b : Balance) :
    (add_or_update_user st i a b).2 =
      "User " ++ i ++ " stored successfully" := rfl

end DstakeBackend
